import Mathlib

/-!
Shallow embedding of the string interner core (`src/src/interner.rs`).

The interner owns three components (struct `StringInterner`): a deduplication
table `dedup` keyed by symbol, a `hasher`, and a `backend`.  The dedup table
is a hash map probed through the raw-entry API: a lookup computes
`make_hash(string)` with the instance-owned hasher and uses that hash code as
the bucket key; only entries stored under that hash code are examined, and
each examined candidate symbol is resolved through `backend.resolve` and its
content compared with the query byte for byte.  An insertion stores the new
symbol under the hash computed for the probe (`insert_with_hasher`).  We
model the table as the list of its entries in probe order, each entry a pair
of the symbol and the hash code it was stored under; symbols are `Nat`, the
hasher is abstract seed state, and panics are explicit `Except.error`
results.

The backend trait, the concrete symbol type and the hash map internals are
not part of the source under `src/`; the backend is modelled from the spec
(sections 3, 4.2, 6) as a list of interned strings where `intern` appends
and mints the next index as the fresh symbol, failing when the bounded
symbol space is exhausted, and the hash map from its raw-entry contract: a
lookup under hash code `h` finds exactly the entries stored under `h` that
satisfy the probe predicate.
-/

set_option autoImplicit false

namespace StringInternerModel

/-- Panic-class failures of the core: a symbol held in the dedup table that
fails to resolve in the backend (`expect("encountered missing symbol")`),
and exhaustion of the bounded symbol space on intern. -/
inductive PanicKind where
  | missingSymbol
  | symbolSpaceExhausted
deriving DecidableEq, Repr

/-- Modelled from the spec: the symbol space has a maximum cardinality
bounded by the token's bit width (spec section 3); the concrete symbol type
is outside `src/`. -/
def symMax : Nat := 2 ^ 32 - 1

/-- Modelled from the spec: the backend physically owns the bytes of every
interned string (spec sections 3, 4.2); concrete backends are outside
`src/`.  The store is the list of interned strings, a symbol being an index
into it. -/
structure Backend where
  strings : List String
deriving DecidableEq, Repr

/-- Modelled from the spec: `resolve(symbol) -> content | absent` returns
the exact bytes given at intern time, or absent if the symbol was never
issued by this backend instance (spec section 4.2). -/
def Backend.resolve (b : Backend) (sym : Nat) : Option String :=
  b.strings.get? sym

/-- Modelled from the spec: `intern(content) -> symbol` stores an
independently owned copy of the content and mints a fresh symbol, never one
previously returned for different content; minting fails (a panic in the
concrete backend) when the symbol space is exhausted (spec sections 4.2,
4.1). -/
def Backend.intern (b : Backend) (s : String) : Option (Backend × Nat) :=
  if b.strings.length < symMax then
    some (⟨b.strings ++ [s]⟩, b.strings.length)
  else
    none

/-- Modelled from the spec: `intern_static` is as `intern` but the backend
may avoid copying the bytes; the no-copy choice is unobservable at the value
level (spec sections 4.2, 9). -/
def Backend.intern_static (b : Backend) (s : String) : Option (Backend × Nat) :=
  if b.strings.length < symMax then
    some (⟨b.strings ++ [s]⟩, b.strings.length)
  else
    none

/-- Modelled from the spec: backend equality is an optional capability of
the backend (spec section 4.2), delegated by the interner's `PartialEq`. -/
def Backend.backendEq (a b : Backend) : Bool :=
  a.strings == b.strings

/-- The hasher produced by `H::default()`, as abstract seed state; hasher
selection and seeding policy are a pluggable dependency (spec section 1). -/
def defaultHasher : Nat := 0

/-- Modelled from the spec: the hash of a string under a hasher seed
(`BuildHasher` is external).  Any deterministic function of the seed and the
content models the contract; what the dedup semantics depends on is that
within one instance equal content hashes equally, and that different seeds
may hash the same content differently. -/
def hashFn (seed : Nat) (s : String) : Nat :=
  s.data.foldl (fun h c => (h * 31 + c.toNat) % 2 ^ 64) seed

/-- `StringInterner` (interner.rs lines 39-48): the dedup table (a hash map
keyed by symbol, listed in probe order; each entry carries the hash code it
was stored under, which fixes its bucket), the owned hasher, and the
backend. -/
structure StringInterner where
  dedup : List (Nat × Nat)
  hasher : Nat
  backend : Backend
deriving DecidableEq, Repr

namespace StringInterner

/-- `StringInterner::new` (interner.rs lines 119-125): empty dedup table,
default hasher, default backend. -/
def new : StringInterner :=
  ⟨[], defaultHasher, ⟨[]⟩⟩

/-- `StringInterner::with_capacity` (interner.rs lines 129-135): capacity is
a best-effort preallocation hint with no observable effect on contents. -/
def with_capacity (_cap : Nat) : StringInterner :=
  ⟨[], defaultHasher, ⟨[]⟩⟩

/-- `StringInterner::with_hasher` (interner.rs lines 146-152): empty dedup
table and backend, with the caller-supplied hasher. -/
def with_hasher (hash_builder : Nat) : StringInterner :=
  ⟨[], hash_builder, ⟨[]⟩⟩

/-- `StringInterner::len` (interner.rs lines 166-168): the number of entries
of the dedup table. -/
def len (i : StringInterner) : Nat :=
  i.dedup.length

/-- `StringInterner::is_empty` (interner.rs lines 172-174). -/
def is_empty (i : StringInterner) : Bool :=
  i.len == 0

/-- `StringInterner::make_hash` (interner.rs lines 177-184): hashes with the
instance-owned hasher. -/
def make_hash (i : StringInterner) (s : String) : Nat :=
  hashFn i.hasher s

/-- One raw-entry probe of the dedup table under the hash code `h` computed
by the caller (`from_hash(hash, ...)` at interner.rs lines 197 and 219,
modelled from the raw-entry contract of the absent hash map: only entries
stored under `h` are examined).  Each examined candidate symbol is resolved
through the backend and its content compared with the query (the closures at
interner.rs lines 197-202 and 219-224); an examined candidate that fails to
resolve is the fatal `expect("encountered missing symbol")` panic. -/
def probe (b : Backend) (h : Nat) (s : String) :
    List (Nat × Nat) → Except PanicKind (Option Nat)
  | [] => Except.ok none
  | e :: rest =>
    if e.2 = h then
      match b.resolve e.1 with
      | none => Except.error PanicKind.missingSymbol
      | some t => if t = s then Except.ok (some e.1) else probe b h s rest
    else probe b h s rest

/-- `StringInterner::get` (interner.rs lines 190-203): pure lookup, a probe
of the dedup table under the hash of the query computed with the instance
hasher, with no backend intern call. -/
def get (i : StringInterner) (s : String) : Except PanicKind (Option Nat) :=
  probe i.backend (i.make_hash s) s i.dedup

/-- `StringInterner::get_or_intern_using` (interner.rs lines 209-234):
compute the hash of the string once (line 217), probe under it; on an
occupied entry return its symbol, on a vacant entry ask the given backend
intern function for a fresh symbol and insert it into the dedup table under
the originally computed hash (`insert_with_hasher(hash, ...)`, line 230).
The hash value is pure, so writing `i.make_hash s` at both its use sites
denotes the once-computed value. -/
def get_or_intern_using (i : StringInterner)
    (intern_fn : Backend → String → Option (Backend × Nat)) (s : String) :
    Except PanicKind (Nat × StringInterner) :=
  match probe i.backend (i.make_hash s) s i.dedup with
  | Except.error e => Except.error e
  | Except.ok (some sym) => Except.ok (sym, i)
  | Except.ok none =>
    match intern_fn i.backend s with
    | none => Except.error PanicKind.symbolSpaceExhausted
    | some (b', sym) =>
      Except.ok (sym, ⟨i.dedup ++ [(sym, i.make_hash s)], i.hasher, b'⟩)

/-- `StringInterner::get_or_intern` (interner.rs lines 245-250). -/
def get_or_intern (i : StringInterner) (s : String) :
    Except PanicKind (Nat × StringInterner) :=
  i.get_or_intern_using Backend.intern s

/-- `StringInterner::get_or_intern_static` (interner.rs lines 266-268). -/
def get_or_intern_static (i : StringInterner) (s : String) :
    Except PanicKind (Nat × StringInterner) :=
  i.get_or_intern_using Backend.intern_static s

/-- `StringInterner::resolve` (interner.rs lines 272-274): delegates to the
backend, bypassing the dedup table. -/
def resolve (i : StringInterner) (sym : Nat) : Option String :=
  i.backend.resolve sym

/-- `Clone for StringInterner` (interner.rs lines 78-89): clones the dedup
table and the backend, and default-constructs the hasher. -/
def clone (i : StringInterner) : StringInterner :=
  ⟨i.dedup, defaultHasher, i.backend⟩

/-- `PartialEq for StringInterner` (interner.rs lines 98-100): equal lengths
and equal backends, backend equality being delegated. -/
def eq (a b : StringInterner) : Bool :=
  (a.len == b.len) && Backend.backendEq a.backend b.backend

/-- A sequence of mutating intern calls on one instance: `true` marks a
`get_or_intern_static` call, `false` a `get_or_intern` call.  Returns the
symbols handed out and the final state, or the first panic. -/
def run_calls : StringInterner → List (Bool × String) →
    Except PanicKind (List Nat × StringInterner)
  | i, [] => Except.ok ([], i)
  | i, (st, s) :: rest =>
    match (if st then i.get_or_intern_static s else i.get_or_intern s) with
    | Except.error e => Except.error e
    | Except.ok (sym, i') =>
      match run_calls i' rest with
      | Except.error e => Except.error e
      | Except.ok (syms, i'') => Except.ok (sym :: syms, i'')

/-- The representation invariant of every state reachable through the API
without replacing the hasher (spec section 3): the dedup table holds
exactly the symbols the backend has minted, i.e. `0, 1, ..., len-1` in
insertion order; the backend holds pairwise distinct contents; and every
entry is stored under the hash its symbol's content has under the
instance's current hasher.  `clone` breaks the third conjunct when the
original's hasher differs from the default one. -/
def WF (i : StringInterner) : Prop :=
  i.dedup.map Prod.fst = List.range i.backend.strings.length ∧
  i.backend.strings.Nodup ∧
  ∀ e ∈ i.dedup, (i.backend.resolve e.1).map (hashFn i.hasher) = some e.2

instance (i : StringInterner) : Decidable (WF i) := by
  unfold WF; infer_instance

/-! ### Probe characterization -/

/-- Probing for `s` under the hash `s` has with the probing hasher, over a
table whose every entry resolves and is stored under the hash of its own
resolved content with that same hasher: the probe does not panic, a
returned symbol is a table entry's and resolves to the query, and `none`
means no table entry resolves to the query (entries in other buckets
cannot either, since equal content would mean an equal stored hash). -/
lemma probe_spec (b : Backend) (seed : Nat) (s : String) (es : List (Nat × Nat))
    (h : ∀ e ∈ es, (b.resolve e.1).map (hashFn seed) = some e.2) :
    ∃ r, probe b (hashFn seed s) s es = Except.ok r ∧
      (r = none → ∀ e ∈ es, b.resolve e.1 ≠ some s) ∧
      (∀ sym, r = some sym → (∃ e ∈ es, e.1 = sym) ∧ b.resolve sym = some s) := by
  induction es with
  | nil =>
    exact ⟨none, rfl, fun _ e he => absurd he (List.not_mem_nil e),
      fun sym hsym => by cases hsym⟩
  | cons x rest ih =>
    have hx := h x (List.mem_cons_self x rest)
    rcases hres : b.resolve x.1 with _ | t
    · rw [hres] at hx; simp at hx
    · rw [hres] at hx
      have hxh : hashFn seed t = x.2 := by simpa using hx
      obtain ⟨r, hr, hnone, hsome⟩ :=
        ih (fun e he => h e (List.mem_cons_of_mem x he))
      by_cases hhash : x.2 = hashFn seed s
      · by_cases hts : t = s
        · refine ⟨some x.1, ?_, ?_, ?_⟩
          · rw [probe, if_pos hhash, hres]
            dsimp only
            rw [if_pos hts]
          · intro hc; cases hc
          · rintro sym hsym
            obtain rfl : x.1 = sym := Option.some.inj hsym
            exact ⟨⟨x, List.mem_cons_self x rest, rfl⟩, by rw [hres, hts]⟩
        · refine ⟨r, ?_, ?_, ?_⟩
          · rw [probe, if_pos hhash, hres]
            dsimp only
            rw [if_neg hts]
            exact hr
          · intro hc e he
            rcases List.mem_cons.mp he with rfl | he'
            · rw [hres]; intro hc'; exact hts (Option.some.inj hc')
            · exact hnone hc e he'
          · intro sym hsym
            obtain ⟨⟨e, he, he1⟩, hres'⟩ := hsome sym hsym
            exact ⟨⟨e, List.mem_cons_of_mem x he, he1⟩, hres'⟩
      · refine ⟨r, ?_, ?_, ?_⟩
        · rw [probe, if_neg hhash]
          exact hr
        · intro hc e he
          rcases List.mem_cons.mp he with rfl | he'
          · rw [hres]
            intro hc'
            exact hhash (by rw [← hxh, Option.some.inj hc'])
          · exact hnone hc e he'
        · intro sym hsym
          obtain ⟨⟨e, he, he1⟩, hres'⟩ := hsome sym hsym
          exact ⟨⟨e, List.mem_cons_of_mem x he, he1⟩, hres'⟩

/-! ### Facts about well-formed states -/

lemma wf_new : WF new := by decide

lemma wf_len {i : StringInterner} (hWF : WF i) :
    i.len = i.backend.strings.length := by
  rw [len, ← List.length_map i.dedup Prod.fst, hWF.1, List.length_range]

/-- Characterization of `get` on a well-formed state: it never panics, it
returns `none` exactly on content the backend does not hold, and a returned
symbol resolves to the query. -/
lemma get_wf {i : StringInterner} (hWF : WF i) (s : String) :
    ∃ r, i.get s = Except.ok r ∧
      ((r = none) ↔ s ∉ i.backend.strings) ∧
      (∀ sym, r = some sym → i.backend.resolve sym = some s) := by
  obtain ⟨r, hr, hnone, hsome⟩ :=
    probe_spec i.backend i.hasher s i.dedup hWF.2.2
  refine ⟨r, hr, ⟨?_, ?_⟩, fun sym h => (hsome sym h).2⟩
  · intro h hmem
    obtain ⟨n, hn⟩ := List.mem_iff_get?.mp hmem
    have hlt : n < i.backend.strings.length := (List.get?_eq_some.mp hn).1
    have hnd : n ∈ i.dedup.map Prod.fst := by
      rw [hWF.1]; exact List.mem_range.mpr hlt
    obtain ⟨e, he, he1⟩ := List.mem_map.mp hnd
    exact hnone h e he (by rw [he1]; exact hn)
  · intro hnot
    cases r with
    | none => rfl
    | some sym => exact absurd (List.get?_mem (hsome sym rfl).2) hnot

/-- A symbol of a well-formed state resolving to `s` is found again by
`get`: distinct contents (`Nodup`) make the probed symbol unique. -/
lemma get_of_resolve {i : StringInterner} (hWF : WF i) {s : String} {sym : Nat}
    (hres : i.backend.resolve sym = some s) :
    i.get s = Except.ok (some sym) := by
  obtain ⟨r, hr, hnone, hsome⟩ := get_wf hWF s
  have hmem : s ∈ i.backend.strings := List.get?_mem hres
  cases r with
  | none => exact absurd hmem (hnone.mp rfl)
  | some sym' =>
    have hres' : i.backend.resolve sym' = some s := hsome sym' rfl
    have hlt : sym < i.backend.strings.length := (List.get?_eq_some.mp hres).1
    have : sym = sym' :=
      List.get?_inj hlt hWF.2.1 (hres.trans hres'.symm)
    rw [hr, this]

/-- Reduction of `get_or_intern_using` on an occupied entry. -/
lemma get_or_intern_using_of_get {i : StringInterner} {s : String} {sym : Nat}
    (fn : Backend → String → Option (Backend × Nat))
    (h : i.get s = Except.ok (some sym)) :
    i.get_or_intern_using fn s = Except.ok (sym, i) := by
  rw [get] at h
  rw [get_or_intern_using, h]

/-- The two backend intern entry points coincide observably: the no-copy
choice of `intern_static` is not visible at the value level. -/
lemma intern_static_eq_intern : Backend.intern_static = Backend.intern := rfl

/-- `get_or_intern_static` and `get_or_intern` are the same function on
states: both are `get_or_intern_using` with observably equal backend
intern functions. -/
lemma static_eq_dynamic (i : StringInterner) (s : String) :
    i.get_or_intern_static s = i.get_or_intern s := rfl

/-- Case analysis of one `get_or_intern` call on a well-formed state:
either the content is already interned and the dedup hit returns its unique
symbol with the state untouched, or the content is fresh and the call
appends it to the backend and its new symbol to the dedup table, panicking
instead when the symbol space is exhausted. -/
lemma get_or_intern_step {i : StringInterner} (hWF : WF i) (s : String) :
    (∃ sym, i.get s = Except.ok (some sym) ∧
        i.get_or_intern s = Except.ok (sym, i) ∧
        i.backend.resolve sym = some s ∧ s ∈ i.backend.strings) ∨
    (i.get s = Except.ok none ∧ s ∉ i.backend.strings ∧
      (i.backend.strings.length < symMax →
        i.get_or_intern s =
          Except.ok (i.backend.strings.length,
            ⟨i.dedup ++ [(i.backend.strings.length, i.make_hash s)], i.hasher,
              ⟨i.backend.strings ++ [s]⟩⟩)) ∧
      (symMax ≤ i.backend.strings.length →
        i.get_or_intern s = Except.error PanicKind.symbolSpaceExhausted)) := by
  obtain ⟨r, hr, hnone, hsome⟩ := get_wf hWF s
  cases r with
  | some sym =>
    exact Or.inl ⟨sym, hr, get_or_intern_using_of_get Backend.intern hr,
      hsome sym rfl, List.get?_mem (hsome sym rfl)⟩
  | none =>
    refine Or.inr ⟨hr, hnone.mp rfl, ?_, ?_⟩
    · intro hlt
      rw [get] at hr
      rw [get_or_intern, get_or_intern_using, hr, Backend.intern, if_pos hlt]
    · intro hge
      rw [get] at hr
      rw [get_or_intern, get_or_intern_using, hr, Backend.intern,
        if_neg (Nat.not_lt.mpr hge)]

/-- Appending fresh content to a well-formed state preserves the
representation invariant: the new entry is stored under the hash of its
content with the instance hasher (`insert_with_hasher` receives the hash
of the probe). -/
lemma wf_insert {i : StringInterner} (hWF : WF i) {s : String}
    (hs : s ∉ i.backend.strings) :
    WF ⟨i.dedup ++ [(i.backend.strings.length, i.make_hash s)], i.hasher,
      ⟨i.backend.strings ++ [s]⟩⟩ := by
  obtain ⟨hd, hnd, hh⟩ := hWF
  refine ⟨?_, ?_, ?_⟩
  · show (i.dedup ++ [(i.backend.strings.length, i.make_hash s)]).map Prod.fst =
      List.range (i.backend.strings ++ [s]).length
    rw [List.map_append, hd, List.length_append, List.length_singleton,
      List.range_succ]
    rfl
  · show (i.backend.strings ++ [s]).Nodup
    simp [List.nodup_append, hnd, hs]
  · intro e he
    rcases List.mem_append.mp he with he' | he'
    · have he1 : e.1 < i.backend.strings.length := by
        have : e.1 ∈ i.dedup.map Prod.fst := List.mem_map.mpr ⟨e, he', rfl⟩
        rw [hd] at this
        exact List.mem_range.mp this
      show ((i.backend.strings ++ [s]).get? e.1).map (hashFn i.hasher) = some e.2
      rw [List.get?_append he1]
      exact hh e he'
    · obtain rfl : e = (i.backend.strings.length, i.make_hash s) := by
        simpa using he'
      show ((i.backend.strings ++ [s]).get? i.backend.strings.length).map
        (hashFn i.hasher) = some (i.make_hash s)
      rw [List.get?_concat_length]
      rfl

/-- A successful `get_or_intern` preserves well-formedness, round-trips
through `resolve`, keeps every previously resolvable symbol resolvable to
the same content, and grows the backend by at most the one new string. -/
lemma wf_get_or_intern {i i' : StringInterner} {s : String} {sym : Nat}
    (hWF : WF i) (h : i.get_or_intern s = Except.ok (sym, i')) :
    WF i' ∧ i'.backend.resolve sym = some s ∧
      (∀ k v, i.backend.resolve k = some v → i'.backend.resolve k = some v) ∧
      i.len ≤ i'.len := by
  rcases get_or_intern_step hWF s with
    ⟨sym0, _hget, hio, hres, _hmem⟩ | ⟨_hget, hnmem, hok, herr⟩
  · rw [hio] at h
    obtain ⟨rfl, rfl⟩ : sym0 = sym ∧ i = i' := by
      constructor <;> [exact congrArg Prod.fst (Except.ok.inj h);
        exact congrArg Prod.snd (Except.ok.inj h)]
    exact ⟨hWF, hres, fun k v hv => hv, Nat.le_refl _⟩
  · by_cases hlt : i.backend.strings.length < symMax
    · rw [hok hlt] at h
      obtain ⟨rfl, rfl⟩ : i.backend.strings.length = sym ∧ _ = i' := by
        constructor <;> [exact congrArg Prod.fst (Except.ok.inj h);
          exact congrArg Prod.snd (Except.ok.inj h)]
      refine ⟨wf_insert hWF hnmem, ?_, ?_, ?_⟩
      · show (i.backend.strings ++ [s]).get? i.backend.strings.length = some s
        exact List.get?_concat_length i.backend.strings s
      · intro k v hv
        show (i.backend.strings ++ [s]).get? k = some v
        rw [List.get?_append (List.get?_eq_some.mp hv).1]
        exact hv
      · show i.dedup.length ≤
          (i.dedup ++ [(i.backend.strings.length, i.make_hash s)]).length
        simp
    · rw [herr (Nat.le_of_not_lt hlt)] at h
      cases h

/-- A run of mutating calls from a well-formed state that returns without
panicking ends well-formed, emits one symbol per call, keeps previously
resolvable symbols stable, and every emitted symbol resolves, in the final
state, to the content of its own call. -/
lemma run_calls_spec (calls : List (Bool × String)) :
    ∀ {i : StringInterner} {syms : List Nat} {i' : StringInterner}, WF i →
      run_calls i calls = Except.ok (syms, i') →
      WF i' ∧ syms.length = calls.length ∧
        (∀ k v, i.backend.resolve k = some v → i'.backend.resolve k = some v) ∧
        ∀ j (hj : j < syms.length) (hjc : j < calls.length),
          i'.backend.resolve (syms.get ⟨j, hj⟩) = some (calls.get ⟨j, hjc⟩).2 := by
  induction calls with
  | nil =>
    intro i syms i' hWF hrun
    obtain ⟨rfl, rfl⟩ : ([] : List Nat) = syms ∧ i = i' := by
      rw [run_calls] at hrun
      constructor <;> [exact congrArg Prod.fst (Except.ok.inj hrun);
        exact congrArg Prod.snd (Except.ok.inj hrun)]
    exact ⟨hWF, rfl, fun k v hv => hv, fun j hj _ => absurd hj (Nat.not_lt_zero j)⟩
  | cons c rest ih =>
    intro i syms i' hWF hrun
    rw [run_calls] at hrun
    rw [show (if c.1 then i.get_or_intern_static c.2 else i.get_or_intern c.2) =
        i.get_or_intern c.2 from by cases c.1 <;> simp [static_eq_dynamic]] at hrun
    rcases h1 : i.get_or_intern c.2 with e | p
    · rw [h1] at hrun; cases hrun
    · obtain ⟨sym, i1⟩ := p
      rw [h1] at hrun
      dsimp only at hrun
      rcases h2 : run_calls i1 rest with e | q
      · rw [h2] at hrun; cases hrun
      · obtain ⟨syms1, i2⟩ := q
        rw [h2] at hrun
        dsimp only at hrun
        obtain ⟨rfl, rfl⟩ : sym :: syms1 = syms ∧ i2 = i' := by
          constructor <;> [exact congrArg Prod.fst (Except.ok.inj hrun);
            exact congrArg Prod.snd (Except.ok.inj hrun)]
        obtain ⟨hWF1, hres1, hmono1, _hlen1⟩ := wf_get_or_intern hWF h1
        obtain ⟨hWF2, hlen2, hmono2, hres2⟩ := ih hWF1 h2
        refine ⟨hWF2, by simpa using hlen2, ?_, ?_⟩
        · exact fun k v hv => hmono2 k v (hmono1 k v hv)
        · intro j hj hjc
          cases j with
          | zero => exact hmono2 sym c.2 hres1
          | succ m =>
            exact hres2 m (Nat.lt_of_succ_lt_succ hj) (Nat.lt_of_succ_lt_succ hjc)

/-- A probe that finds no content match but whose probed bucket (entries
stored under the lookup hash) holds a symbol the backend cannot resolve
panics with the missing-symbol failure. -/
lemma probe_missing (b : Backend) (h : Nat) (s : String) (es : List (Nat × Nat))
    (hnomatch : ∀ e ∈ es, b.resolve e.1 ≠ some s)
    (hmiss : ∃ e ∈ es, e.2 = h ∧ b.resolve e.1 = none) :
    probe b h s es = Except.error PanicKind.missingSymbol := by
  induction es with
  | nil =>
    obtain ⟨e, he, _⟩ := hmiss
    exact absurd he (List.not_mem_nil e)
  | cons x rest ih =>
    by_cases hhash : x.2 = h
    · rcases hres : b.resolve x.1 with _ | t
      · rw [probe, if_pos hhash, hres]
      · have hts : t ≠ s := by
          intro he
          exact hnomatch x (List.mem_cons_self x rest) (by rw [hres, he])
        rw [probe, if_pos hhash, hres]
        dsimp only
        rw [if_neg hts]
        refine ih (fun e he => hnomatch e (List.mem_cons_of_mem x he)) ?_
        obtain ⟨e, he, heh, hen⟩ := hmiss
        rcases List.mem_cons.mp he with rfl | he'
        · rw [hres] at hen; cases hen
        · exact ⟨e, he', heh, hen⟩
    · rw [probe, if_neg hhash]
      refine ih (fun e he => hnomatch e (List.mem_cons_of_mem x he)) ?_
      obtain ⟨e, he, heh, hen⟩ := hmiss
      rcases List.mem_cons.mp he with rfl | he'
      · exact absurd heh hhash
      · exact ⟨e, he', heh, hen⟩

/-- A probe that returns a symbol returns the symbol of one of the probed
entries, and it resolves to the query content. -/
lemma probe_some_sound (b : Backend) (h : Nat) (s : String)
    (es : List (Nat × Nat)) (sym : Nat)
    (hp : probe b h s es = Except.ok (some sym)) :
    (∃ e ∈ es, e.1 = sym) ∧ b.resolve sym = some s := by
  induction es with
  | nil => exact absurd (Except.ok.inj hp) (fun hc => by cases hc)
  | cons x rest ih =>
    rw [probe] at hp
    by_cases hhash : x.2 = h
    · rw [if_pos hhash] at hp
      rcases hres : b.resolve x.1 with _ | t
      · rw [hres] at hp; cases hp
      · rw [hres] at hp
        dsimp only at hp
        by_cases hts : t = s
        · rw [if_pos hts] at hp
          obtain rfl : x.1 = sym := Option.some.inj (Except.ok.inj hp)
          exact ⟨⟨x, List.mem_cons_self x rest, rfl⟩, by rw [hres, hts]⟩
        · rw [if_neg hts] at hp
          obtain ⟨⟨e, he, he1⟩, hr⟩ := ih hp
          exact ⟨⟨e, List.mem_cons_of_mem x he, he1⟩, hr⟩
    · rw [if_neg hhash] at hp
      obtain ⟨⟨e, he, he1⟩, hr⟩ := ih hp
      exact ⟨⟨e, List.mem_cons_of_mem x he, he1⟩, hr⟩

/-- A probe over a table whose every entry resolves, none of them to the
query content, finds nothing and does not panic. -/
lemma probe_none (b : Backend) (h : Nat) (s : String) (es : List (Nat × Nat))
    (hnomatch : ∀ e ∈ es, b.resolve e.1 ≠ some s)
    (hres : ∀ e ∈ es, (b.resolve e.1).isSome) :
    probe b h s es = Except.ok none := by
  induction es with
  | nil => rfl
  | cons x rest ih =>
    have htail := ih (fun e he => hnomatch e (List.mem_cons_of_mem x he))
      (fun e he => hres e (List.mem_cons_of_mem x he))
    by_cases hhash : x.2 = h
    · obtain ⟨t, ht⟩ :=
        Option.isSome_iff_exists.mp (hres x (List.mem_cons_self x rest))
      have hts : t ≠ s := by
        intro he
        exact hnomatch x (List.mem_cons_self x rest) (by rw [ht, he])
      rw [probe, if_pos hhash, ht]
      dsimp only
      rw [if_neg hts]
      exact htail
    · rw [probe, if_neg hhash]
      exact htail

/-- Repeating `get_or_intern` with content the backend already holds leaves
a well-formed state untouched, however often it is repeated. -/
lemma run_replicate_hit {i : StringInterner} (hWF : WF i) {s : String}
    (hmem : s ∈ i.backend.strings) :
    ∀ m, ∃ syms : List Nat,
      run_calls i (List.replicate m (false, s)) = Except.ok (syms, i) := by
  intro m
  induction m with
  | zero => exact ⟨[], rfl⟩
  | succ k ih =>
    obtain ⟨syms, hrun⟩ := ih
    rcases get_or_intern_step hWF s with ⟨sym, _, hio, _, _⟩ | ⟨_, hnm, _, _⟩
    · refine ⟨sym :: syms, ?_⟩
      rw [List.replicate_succ, run_calls]
      simp only [Bool.false_eq_true, if_false, hio, hrun]
    · exact absurd hmem hnm

/-! ### Claim theorems -/

/-- Claim C1: over any sequence of `get_or_intern` / `get_or_intern_static`
calls on one interner instance, two returned symbols compare equal iff the
string contents they were interned from are byte-identical: identical
content yields the same symbol, differing content yields distinct
symbols. -/
theorem interned_symbols_eq_iff_contents_eq
    (i : StringInterner) (hWF : WF i)
    (calls : List (Bool × String)) (syms : List Nat) (i' : StringInterner)
    (hrun : run_calls i calls = Except.ok (syms, i'))
    (j k : Nat) (hj : j < syms.length) (hk : k < syms.length)
    (hjc : j < calls.length) (hkc : k < calls.length) :
    syms.get ⟨j, hj⟩ = syms.get ⟨k, hk⟩ ↔
      (calls.get ⟨j, hjc⟩).2 = (calls.get ⟨k, hkc⟩).2 := by
  obtain ⟨hWF', _hlen, _hmono, hres⟩ := run_calls_spec calls hWF hrun
  have h1 := hres j hj hjc
  have h2 := hres k hk hkc
  rw [Backend.resolve] at h1 h2
  constructor
  · intro h
    rw [h] at h1
    exact Option.some.inj (h1.symm.trans h2)
  · intro h
    rw [h] at h1
    have hlt : syms.get ⟨j, hj⟩ < i'.backend.strings.length :=
      (List.get?_eq_some.mp h1).1
    exact List.get?_inj hlt hWF'.2.1 (h1.trans h2.symm)

/-- Witness for C1 at the concrete run interning `"cat"`, `"cat"` (static),
`"dog"` on a fresh instance, emitting symbols `0, 0, 1`. -/
theorem interned_symbols_eq_iff_contents_eq_witness :
    (([0, 0, 1] : List Nat).get ⟨0, by decide⟩ =
        ([0, 0, 1] : List Nat).get ⟨1, by decide⟩ ↔
      (([(false, "cat"), (true, "cat"), (false, "dog")] :
          List (Bool × String)).get ⟨0, by decide⟩).2 =
        (([(false, "cat"), (true, "cat"), (false, "dog")] :
          List (Bool × String)).get ⟨1, by decide⟩).2) :=
  interned_symbols_eq_iff_contents_eq new wf_new
    [(false, "cat"), (true, "cat"), (false, "dog")] [0, 0, 1]
    ⟨[(0, hashFn defaultHasher "cat"), (1, hashFn defaultHasher "dog")],
      defaultHasher, ⟨["cat", "dog"]⟩⟩ rfl
    0 1 (by decide) (by decide) (by decide) (by decide)

/-- Claim C2: `resolve(get_or_intern(s)) == Some(s)` on the same instance,
with byte-identical content, and the same round-trip holds for a symbol
obtained from a successful `get` query. -/
theorem resolve_get_or_intern_roundtrip (i : StringInterner) (hWF : WF i)
    (s : String) :
    (∀ sym i', i.get_or_intern s = Except.ok (sym, i') →
      i'.resolve sym = some s) ∧
    (∀ sym, i.get s = Except.ok (some sym) → i.resolve sym = some s) := by
  constructor
  · intro sym i' h
    exact (wf_get_or_intern hWF h).2.1
  · intro sym h
    obtain ⟨r, hr, _, hsome⟩ := get_wf hWF s
    have : r = some sym := Except.ok.inj (hr.symm.trans h)
    exact hsome sym this

/-- Witness for C2: interning `"a"` into a fresh instance and resolving the
returned symbol on the returned instance yields `"a"`. -/
theorem resolve_get_or_intern_roundtrip_witness :
    (⟨[(0, hashFn defaultHasher "a")], defaultHasher,
      ⟨["a"]⟩⟩ : StringInterner).resolve 0 = some "a" :=
  (resolve_get_or_intern_roundtrip new wf_new "a").1 0
    ⟨[(0, hashFn defaultHasher "a")], defaultHasher, ⟨["a"]⟩⟩ rfl

/-- Claim C3: interning the same content `n` times (`n ≥ 1`) increases
`len` by exactly 1 in total; the first call on unseen content grows the
table, every later call with identical content leaves the state (hence
`len`) unchanged. -/
theorem intern_same_content_increments_len_once
    (i : StringInterner) (hWF : WF i) (s : String)
    (hfresh : s ∉ i.backend.strings)
    (hroom : i.backend.strings.length < symMax)
    (n : Nat) (hn : 1 ≤ n) :
    ∃ syms i', run_calls i (List.replicate n (false, s)) = Except.ok (syms, i') ∧
      i'.len = i.len + 1 := by
  obtain ⟨m, rfl⟩ : ∃ m, n = m + 1 := ⟨n - 1, (Nat.succ_pred_eq_of_pos hn).symm⟩
  rcases get_or_intern_step hWF s with ⟨_, _, _, _, hmem⟩ | ⟨_, _, hok, _⟩
  · exact absurd hmem hfresh
  · have h1 := hok hroom
    have hWF1 := wf_insert hWF hfresh
    have hmem1 : s ∈ i.backend.strings ++ [s] :=
      List.mem_append_right _ (List.mem_singleton.mpr rfl)
    obtain ⟨syms, hrun1⟩ := run_replicate_hit hWF1 hmem1 m
    refine ⟨i.backend.strings.length :: syms,
      ⟨i.dedup ++ [(i.backend.strings.length, i.make_hash s)], i.hasher,
        ⟨i.backend.strings ++ [s]⟩⟩, ?_, ?_⟩
    · rw [List.replicate_succ, run_calls]
      simp only [Bool.false_eq_true, if_false, h1, hrun1]
    · show (i.dedup ++ [(i.backend.strings.length, i.make_hash s)]).length
        = i.dedup.length + 1
      simp

/-- Witness for C3: interning `"a"` twice into a fresh instance ends with
`len` equal to 1. -/
theorem intern_same_content_increments_len_once_witness :
    ∃ syms i',
      run_calls new (List.replicate 2 (false, "a")) = Except.ok (syms, i') ∧
        i'.len = new.len + 1 :=
  intern_same_content_increments_len_once new wf_new "a"
    (by decide) (by decide) 2 (by decide)

/-- Claim C4 (code bug): cloning does not preserve the deduplication
invariant on the copy.  `Clone` (interner.rs line 86) installs
`H::default()` while the copied dedup table's entries stay stored under the
hashes the original's hasher produced, so lookups on the clone probe the
wrong buckets.  Concretely: intern `"a"` into a `with_hasher 1` instance,
clone it, and intern `"a"` into the clone — the clone's probe under the
default hasher's hash misses the entry stored under the seed-1 hash and
interns a duplicate, returning the fresh symbol 1 instead of the existing
symbol 0 and raising the clone's `len` from 1 to 2.  (Resolution on the
untouched clone does still match the original, and the original value is
never touched; it is the dedup clause of the claim that the code
violates.) -/
theorem clone_dedup_duplicates_on_seeded_hasher :
    (with_hasher 1).get_or_intern "a"
        = Except.ok (0, ⟨[(0, hashFn 1 "a")], 1, ⟨["a"]⟩⟩) ∧
    hashFn 1 "a" ≠ hashFn defaultHasher "a" ∧
    (⟨[(0, hashFn 1 "a")], 1, ⟨["a"]⟩⟩ : StringInterner).clone
        = ⟨[(0, hashFn 1 "a")], defaultHasher, ⟨["a"]⟩⟩ ∧
    (⟨[(0, hashFn 1 "a")], 1, ⟨["a"]⟩⟩ : StringInterner).clone.get_or_intern "a"
        = Except.ok (1,
            ⟨[(0, hashFn 1 "a"), (1, hashFn defaultHasher "a")], defaultHasher,
              ⟨["a", "a"]⟩⟩) ∧
    (⟨[(0, hashFn 1 "a")], 1, ⟨["a"]⟩⟩ : StringInterner).len = 1 ∧
    (⟨[(0, hashFn 1 "a"), (1, hashFn defaultHasher "a")], defaultHasher,
        ⟨["a", "a"]⟩⟩ : StringInterner).len = 2 ∧
    (∀ sym, (⟨[(0, hashFn 1 "a")], 1, ⟨["a"]⟩⟩ : StringInterner).clone.resolve sym
        = (⟨[(0, hashFn 1 "a")], 1, ⟨["a"]⟩⟩ : StringInterner).resolve sym) :=
  ⟨rfl, by decide, rfl, rfl, rfl, rfl, fun sym => rfl⟩

/-- Claim C5: `get_or_intern_static` is observably equivalent to
`get_or_intern`: the two entry points are the same function on states, and
after content equal to `s` has been interned, a later
`get_or_intern_static s` returns the existing symbol with the state
unchanged (no duplicate entry, same `len`, same `get`/`resolve` results). -/
theorem get_or_intern_static_equiv (i : StringInterner) (hWF : WF i)
    (s : String) :
    (∀ (j : StringInterner) (t : String),
      j.get_or_intern_static t = j.get_or_intern t) ∧
    (∀ sym i1, i.get_or_intern s = Except.ok (sym, i1) →
      i1.get_or_intern_static s = Except.ok (sym, i1)) := by
  refine ⟨fun j t => rfl, ?_⟩
  intro sym i1 h
  obtain ⟨hWF1, hres, -, -⟩ := wf_get_or_intern hWF h
  exact get_or_intern_using_of_get Backend.intern_static (get_of_resolve hWF1 hres)

/-- Witness for C5: after interning `"a"` into a fresh instance, the static
intern of `"a"` returns the existing symbol 0 and the unchanged state. -/
theorem get_or_intern_static_equiv_witness :
    (⟨[(0, hashFn defaultHasher "a")], defaultHasher,
        ⟨["a"]⟩⟩ : StringInterner).get_or_intern_static "a"
      = Except.ok (0, (⟨[(0, hashFn defaultHasher "a")], defaultHasher,
          ⟨["a"]⟩⟩ : StringInterner)) :=
  (get_or_intern_static_equiv new wf_new "a").2 0
    ⟨[(0, hashFn defaultHasher "a")], defaultHasher, ⟨["a"]⟩⟩ rfl

/-- Claim C6: `get` is a pure query.  Its embedding takes the state without
returning one, mirroring the shared borrow `&self` of the source, and its
definition performs no backend intern call; once `s` has been interned,
`get s` returns exactly the symbol `get_or_intern s` returns, and that
`get_or_intern` call leaves the state (hence `len` and all later
`get`/`resolve` results) unchanged. -/
theorem get_is_pure_query (i : StringInterner) (hWF : WF i) (s : String)
    (sym : Nat) (i' : StringInterner)
    (h : i.get_or_intern s = Except.ok (sym, i')) :
    i'.get s = Except.ok (some sym) ∧
    i'.get_or_intern s = Except.ok (sym, i') := by
  obtain ⟨hWF', hres, -, -⟩ := wf_get_or_intern hWF h
  have hget := get_of_resolve hWF' hres
  exact ⟨hget, get_or_intern_using_of_get Backend.intern hget⟩

/-- Witness for C6: after interning `"a"` into a fresh instance, `get "a"`
returns symbol 0 and re-interning `"a"` leaves the state unchanged. -/
theorem get_is_pure_query_witness :
    (⟨[(0, hashFn defaultHasher "a")], defaultHasher,
        ⟨["a"]⟩⟩ : StringInterner).get "a"
        = Except.ok (some 0) ∧
      (⟨[(0, hashFn defaultHasher "a")], defaultHasher,
          ⟨["a"]⟩⟩ : StringInterner).get_or_intern "a"
        = Except.ok (0, ⟨[(0, hashFn defaultHasher "a")], defaultHasher,
            ⟨["a"]⟩⟩) :=
  get_is_pure_query new wf_new "a" 0
    ⟨[(0, hashFn defaultHasher "a")], defaultHasher, ⟨["a"]⟩⟩ rfl

/-- Claim C7: expected absence is an explicit absent value, not a panic:
`resolve` on a symbol never issued by the instance returns `none`, and
`get` on content never interned returns `Ok none`; both embeddings take the
state without returning one (the shared borrow `&self`), so the state and
`len` are unchanged. -/
theorem absent_returns_none (i : StringInterner) (hWF : WF i) :
    (∀ sym, i.len ≤ sym → i.resolve sym = none) ∧
    (∀ s, s ∉ i.backend.strings → i.get s = Except.ok none) := by
  constructor
  · intro sym hsym
    rw [wf_len hWF] at hsym
    show i.backend.strings.get? sym = none
    exact List.get?_eq_none.mpr hsym
  · intro s hs
    obtain ⟨r, hr, hnone, hsome⟩ := get_wf hWF s
    cases r with
    | none => exact hr
    | some sym => exact absurd (List.get?_mem (hsome sym rfl)) hs

/-- Witness for C7: on an instance holding only `"a"`, `resolve 5` is
`none` and `get "fish"` is `Ok none`. -/
theorem absent_returns_none_witness :
    (⟨[(0, hashFn defaultHasher "a")], defaultHasher,
        ⟨["a"]⟩⟩ : StringInterner).resolve 5 = none ∧
      (⟨[(0, hashFn defaultHasher "a")], defaultHasher,
          ⟨["a"]⟩⟩ : StringInterner).get "fish"
        = Except.ok none :=
  ⟨(absent_returns_none ⟨[(0, hashFn defaultHasher "a")], defaultHasher,
        ⟨["a"]⟩⟩ (by decide)).1 5 (by decide),
    (absent_returns_none ⟨[(0, hashFn defaultHasher "a")], defaultHasher,
        ⟨["a"]⟩⟩ (by decide)).2 "fish" (by decide)⟩

/-- Claim C8: a mutating intern either aborts with a panic-class failure or
fully completes.  When no dedup entry matches the content: a dedup symbol
the backend cannot resolve aborts with the missing-symbol panic; an
exhausted symbol space aborts with the exhaustion panic; and any `Ok`
result carries a symbol that resolves to the interned content and is held
in the dedup table — never a sentinel, never a partially interned
string. -/
theorem intern_aborts_fatally (i : StringInterner) (s : String)
    (hnomatch : ∀ e ∈ i.dedup, i.backend.resolve e.1 ≠ some s) :
    ((∃ e ∈ i.dedup, e.2 = i.make_hash s ∧ i.backend.resolve e.1 = none) →
      i.get_or_intern s = Except.error PanicKind.missingSymbol) ∧
    ((∀ e ∈ i.dedup, (i.backend.resolve e.1).isSome) →
      symMax ≤ i.backend.strings.length →
        i.get_or_intern s = Except.error PanicKind.symbolSpaceExhausted) ∧
    (∀ sym i', i.get_or_intern s = Except.ok (sym, i') →
      i'.backend.resolve sym = some s ∧ (sym, i.make_hash s) ∈ i'.dedup) := by
  refine ⟨?_, ?_, ?_⟩
  · intro hmiss
    rw [get_or_intern, get_or_intern_using,
      probe_missing i.backend (i.make_hash s) s i.dedup hnomatch hmiss]
  · intro hsome hfull
    rw [get_or_intern, get_or_intern_using,
      probe_none i.backend (i.make_hash s) s i.dedup hnomatch hsome]
    dsimp only
    rw [Backend.intern, if_neg (Nat.not_lt.mpr hfull)]
  · intro sym i' h
    rw [get_or_intern, get_or_intern_using] at h
    rcases hp : probe i.backend (i.make_hash s) s i.dedup with e | r
    · rw [hp] at h; cases h
    · cases r with
      | some sym0 =>
        obtain ⟨⟨e, he, he1⟩, hres⟩ :=
          probe_some_sound i.backend (i.make_hash s) s i.dedup sym0 hp
        exact absurd (he1 ▸ hres) (hnomatch e he)
      | none =>
        rw [hp] at h
        dsimp only at h
        rcases hi : Backend.intern i.backend s with _ | p
        · rw [hi] at h; cases h
        · obtain ⟨b', sym'⟩ := p
          rw [hi] at h
          dsimp only at h
          obtain ⟨hb, hs⟩ : b' = ⟨i.backend.strings ++ [s]⟩ ∧
              sym' = i.backend.strings.length := by
            rw [Backend.intern] at hi
            by_cases hlt : i.backend.strings.length < symMax
            · rw [if_pos hlt] at hi
              obtain ⟨h1, h2⟩ := Prod.mk.injEq .. ▸ Option.some.inj hi
              exact ⟨h1.symm, h2.symm⟩
            · rw [if_neg hlt] at hi; cases hi
          obtain ⟨rfl, rfl⟩ : sym' = sym ∧
              (⟨i.dedup ++ [(sym', i.make_hash s)], i.hasher, b'⟩ :
                StringInterner) = i' := by
            constructor
            · exact congrArg Prod.fst (Except.ok.inj h)
            · exact congrArg Prod.snd (Except.ok.inj h)
          subst hb hs
          constructor
          · exact List.get?_concat_length i.backend.strings s
          · exact List.mem_append_right _ (List.mem_singleton.mpr rfl)

/-- Witness for C8, exercising both panic classes: a state whose backend
holds the maximal number of strings aborts a fresh intern with the
exhaustion panic, and a state whose dedup table holds a symbol the backend
cannot resolve aborts with the missing-symbol panic. -/
theorem intern_aborts_fatally_witness :
    (⟨[(0, 0)], defaultHasher,
        ⟨List.replicate symMax "x"⟩⟩ : StringInterner).get_or_intern "y"
        = Except.error PanicKind.symbolSpaceExhausted ∧
      (⟨[(5, hashFn defaultHasher "y")], defaultHasher,
          ⟨["x"]⟩⟩ : StringInterner).get_or_intern "y"
        = Except.error PanicKind.missingSymbol := by
  have hx : Backend.resolve ⟨List.replicate symMax "x"⟩ 0 = some "x" := by
    rw [Backend.resolve]
    show (List.replicate symMax "x").get? 0 = some "x"
    rw [List.get?_eq_getElem?, List.getElem?_replicate,
      if_pos (by decide : (0 : Nat) < symMax)]
  constructor
  · refine (intern_aborts_fatally
      ⟨[(0, 0)], defaultHasher, ⟨List.replicate symMax "x"⟩⟩ "y" ?_).2.1 ?_ ?_
    · intro e he
      obtain rfl : e = (0, 0) := by simpa using he
      dsimp only
      rw [hx]
      intro hc
      exact absurd (Option.some.inj hc) (by decide)
    · intro e he
      obtain rfl : e = (0, 0) := by simpa using he
      dsimp only
      rw [hx]
      exact rfl
    · show symMax ≤ (List.replicate symMax "x").length
      rw [List.length_replicate]
  · refine (intern_aborts_fatally
      ⟨[(5, hashFn defaultHasher "y")], defaultHasher, ⟨["x"]⟩⟩ "y" ?_).1
      ⟨(5, hashFn defaultHasher "y"), List.mem_singleton.mpr rfl, rfl, rfl⟩
    intro e he
    obtain rfl : e = (5, hashFn defaultHasher "y") := by simpa using he
    decide

/-- Claim C9: interner equality holds iff the two instances hold the same
number of entries and their backends compare equal under the backend's own
equality; no string-content comparison is re-derived at the interner
layer. -/
theorem interner_eq_iff_len_and_backend_eq (a b : StringInterner) :
    StringInterner.eq a b = true ↔ (a.len = b.len ∧ a.backend = b.backend) := by
  have hback : ∀ x y : Backend, x.strings = y.strings → x = y := by
    intro x y h
    cases x; cases y; cases h; rfl
  rw [eq, Bool.and_eq_true, beq_iff_eq, Backend.backendEq, beq_iff_eq]
  constructor
  · rintro ⟨h1, h2⟩
    exact ⟨h1, hback _ _ h2⟩
  · rintro ⟨h1, h2⟩
    exact ⟨h1, congrArg Backend.strings h2⟩

/-- Claim C10: cloning copies the dedup table and the backend but not the
hasher; the clone carries a freshly default-constructed hasher, so whenever
the original's hasher state differs from the default, the clone's future
hash computations use the default hasher instead of the one that placed
the copied dedup entries. -/
theorem clone_uses_default_hasher (i : StringInterner)
    (h : i.hasher ≠ defaultHasher) :
    i.clone.dedup = i.dedup ∧ i.clone.backend = i.backend ∧
    i.clone.hasher = defaultHasher ∧ i.clone.hasher ≠ i.hasher ∧
    (∀ s, i.clone.make_hash s = hashFn defaultHasher s) := by
  refine ⟨rfl, rfl, rfl, ?_, fun s => rfl⟩
  show defaultHasher ≠ i.hasher
  exact fun hc => h hc.symm

/-- Witness for C10 at an instance whose hasher state is 1. -/
theorem clone_uses_default_hasher_witness :
    (⟨[], 1, ⟨[]⟩⟩ : StringInterner).clone.hasher = defaultHasher ∧
      (⟨[], 1, ⟨[]⟩⟩ : StringInterner).clone.hasher
        ≠ (⟨[], 1, ⟨[]⟩⟩ : StringInterner).hasher :=
  ⟨(clone_uses_default_hasher ⟨[], 1, ⟨[]⟩⟩ (by decide)).2.2.1,
    (clone_uses_default_hasher ⟨[], 1, ⟨[]⟩⟩ (by decide)).2.2.2.1⟩

end StringInterner

end StringInternerModel
